import Mathlib

/- Verification of the geometric core of the Streamlit GIS app (src/app.py):
   parcel ring closure, shoelace area (the shapely Polygon area used by the
   Plot Parcel handler), the on-map centroid computation, the LGA containment
   scan, and the traverse computation sheet (distance, bearing, angle).
   Planar coordinates are embedded as rational pairs; the trigonometric part
   of the computation sheet is embedded over the reals further below. -/

/-- First element of a coordinate list, defaulting to the origin.  The source
    indexes `utm_coords[0]`, which is only reached on nonempty input (the
    beacon-count widget enforces at least 3 points). -/
def headP : List (ℚ × ℚ) → ℚ × ℚ
  | [] => (0, 0)
  | p :: _ => p

/-- Last element of a coordinate list, defaulting to the origin.  The source
    indexes `utm_coords[-1]`. -/
def lastP : List (ℚ × ℚ) → ℚ × ℚ
  | [] => (0, 0)
  | [p] => p
  | _ :: q :: rest => lastP (q :: rest)

/-- Ring closure, src/app.py lines 234-235: if the first point differs from
    the last, append a copy of the first point; otherwise leave the list
    unchanged.  (The same rule is applied internally by shapely when a
    Polygon is built from an unclosed coordinate sequence.) -/
def closeRing : List (ℚ × ℚ) → List (ℚ × ℚ)
  | [] => []
  | a :: rest => if a ≠ lastP (a :: rest) then (a :: rest) ++ [a] else a :: rest

/-- Cross product term `x_i * y_j - x_j * y_i` of the shoelace formula. -/
def cross (p q : ℚ × ℚ) : ℚ := p.1 * q.2 - q.1 * p.2

/-- Sum of shoelace cross terms over consecutive pairs of a coordinate list. -/
def shoelaceSum : List (ℚ × ℚ) → ℚ
  | [] => 0
  | [_] => 0
  | p :: q :: rest => cross p q + shoelaceSum (q :: rest)

/-- Shoelace sum of a list read cyclically (the wrap-around edge from the
    last element back to the first is included). -/
def cycShoelace (l : List (ℚ × ℚ)) : ℚ := shoelaceSum l + cross (lastP l) (headP l)

/-- Models the shapely library call `Polygon(coords).area` at src/app.py
    line 238-239: the coordinate sequence is closed if necessary, a ring
    with fewer than 4 coordinates after closure is rejected by the
    LinearRing constructor (modelled as `none`), an empty sequence builds
    the empty polygon of area 0, and otherwise the area is the absolute
    value of the shoelace sum over the closed ring, halved.  GEOS computes
    this planar area for invalid (self-intersecting or degenerate) rings as
    well; no validity check is involved. -/
def shapelyPolygonArea : List (ℚ × ℚ) → Option ℚ
  | [] => some 0
  | p :: rest =>
      let c := closeRing (p :: rest)
      if c.length < 4 then none else some (|shoelaceSum c| / 2)

/-- The data the Plot Parcel handler stores on success, src/app.py
    lines 236-239: the (closed) coordinate list kept in
    `st.session_state.utm_coords` and the area kept in
    `st.session_state.parcel_area`. -/
structure ParcelResult where
  utm_coords : List (ℚ × ℚ)
  parcel_area : ℚ
deriving DecidableEq

/-- The Plot Parcel button handler, src/app.py lines 233-240: close the ring
    (indexing `utm_coords[0]` / `utm_coords[-1]`, so an empty list is an
    index error, modelled as `none`), build the shapely polygon, store the
    closed ring and its area.  No validity flag is computed and no error of
    the handler's own is raised. -/
def plotParcel : List (ℚ × ℚ) → Option ParcelResult
  | [] => none
  | p :: rest =>
      let c := closeRing (p :: rest)
      (shapelyPolygonArea c).map fun a => { utm_coords := c, parcel_area := a }

/-- The centroid used to centre the map view, src/app.py lines 253-254:
    the arithmetic mean of the coordinate list fed to it (the closed ring
    after reprojection; the duplicated closing vertex is included in the
    mean).  Division is rational division; the source would raise on an
    empty list, which never reaches these lines. -/
def sessionCentroid (ll : List (ℚ × ℚ)) : ℚ × ℚ :=
  ((ll.map Prod.fst).sum / (ll.length : ℚ), (ll.map Prod.snd).sum / (ll.length : ℚ))

/-- Modelled from the spec (section 4.3 Centroid): the standard area-weighted
    polygon centroid over the closed ring, degenerating to the arithmetic
    mean of the vertices (the closed ring without its duplicated closing
    point) when the signed area is zero. -/
def specCentroid (c : List (ℚ × ℚ)) : ℚ × ℚ :=
  let A := shoelaceSum c / 2
  if A = 0 then
    (((c.dropLast.map Prod.fst).sum / (c.dropLast.length : ℚ)),
      ((c.dropLast.map Prod.snd).sum / (c.dropLast.length : ℚ)))
  else
    ((∑ i in Finset.range (c.length - 1),
        ((c.getD i (0, 0)).1 + (c.getD (i + 1) (0, 0)).1) *
          cross (c.getD i (0, 0)) (c.getD (i + 1) (0, 0))) / (6 * A),
      (∑ i in Finset.range (c.length - 1),
        ((c.getD i (0, 0)).2 + (c.getD (i + 1) (0, 0)).2) *
          cross (c.getD i (0, 0)) (c.getD (i + 1) (0, 0))) / (6 * A))

/- ### Boundary index: regions and the containment scan -/

/-- A named administrative region of the loaded boundary dataset: a name
    attribute and the exterior rings of its polygon or multi-polygon parts,
    in geographic coordinates (embedded rationally).  Interior holes are not
    modelled; the dataset schema itself is external to the repository. -/
structure Region where
  name : String
  polys : List (List (ℚ × ℚ))
deriving DecidableEq

/-- Consecutive-vertex edges of a closed ring. -/
def ringEdges (ring : List (ℚ × ℚ)) : List ((ℚ × ℚ) × (ℚ × ℚ)) := ring.zip ring.tail

/-- Point p lies on the closed segment from a to b: collinear and within the
    bounding box. -/
def onSegment (p a b : ℚ × ℚ) : Prop :=
  (b.1 - a.1) * (p.2 - a.2) = (p.1 - a.1) * (b.2 - a.2) ∧
  min a.1 b.1 ≤ p.1 ∧ p.1 ≤ max a.1 b.1 ∧ min a.2 b.2 ≤ p.2 ∧ p.2 ≤ max a.2 b.2

instance (p a b : ℚ × ℚ) : Decidable (onSegment p a b) := by
  unfold onSegment
  infer_instance

/-- The edge from a to b crosses the horizontal ray extending left from p
    (the standard even-odd ray-casting test). -/
def rayCrosses (p a b : ℚ × ℚ) : Prop :=
  ((p.2 < a.2) ↔ ¬(p.2 < b.2)) ∧
  p.1 < a.1 + (b.1 - a.1) * (p.2 - a.2) / (b.2 - a.2)

instance (p a b : ℚ × ℚ) : Decidable (rayCrosses p a b) := by
  unfold rayCrosses
  infer_instance

/-- Number of ring edges crossed by the ray from p. -/
def crossNum (p : ℚ × ℚ) (ring : List (ℚ × ℚ)) : ℕ :=
  (ringEdges ring).countP fun e => decide (rayCrosses p e.1 e.2)

/-- Point p lies on the boundary of the ring: some edge segment carries it. -/
def onRingBoundary (p : ℚ × ℚ) (ring : List (ℚ × ℚ)) : Prop :=
  ((ringEdges ring).any fun e => decide (onSegment p e.1 e.2)) = true

instance (p : ℚ × ℚ) (ring : List (ℚ × ℚ)) : Decidable (onRingBoundary p ring) := by
  unfold onRingBoundary
  infer_instance

/-- Point p lies in the open interior of the ring: odd crossing parity and
    not on the boundary. -/
def inRingInterior (p : ℚ × ℚ) (ring : List (ℚ × ℚ)) : Prop :=
  Odd (crossNum p ring) ∧ ¬ onRingBoundary p ring

instance (p : ℚ × ℚ) (ring : List (ℚ × ℚ)) : Decidable (inRingInterior p ring) := by
  unfold inRingInterior
  infer_instance

/-- Models the geopandas/shapely `contains` test used by the LGA scan at
    src/app.py line 194: a point is contained in a (multi-)polygon region
    iff it lies in the interior of one of its parts.  GEOS `contains` is
    boundary-exclusive: a point lying exactly on the boundary shares no
    interior point with the polygon, so `contains` is false there. -/
def regionContains (r : Region) (p : ℚ × ℚ) : Prop :=
  ∃ ring ∈ r.polys, inRingInterior p ring

instance (r : Region) (p : ℚ × ℚ) : Decidable (regionContains r p) := by
  unfold regionContains
  infer_instance

/-- The containment query, src/app.py lines 194-197 and 213-214: the row
    mask `lga_gdf[lga_gdf.contains(point)]` followed by `match.iloc[0]`
    selects the first region in load-order whose geometry contains the
    point; an empty mask is reported as no match (modelled as `none`). -/
def containingRegion (regs : List Region) (p : ℚ × ℚ) : Option Region :=
  regs.find? fun r => decide (regionContains r p)

/- ### Traverse computation sheet (real-valued embedding) -/

/-- Two-argument arctangent with the quadrant conventions of math.atan2
    (floating-point signed zeros aside, which have no real-number
    counterpart). -/
noncomputable def atan2 (y x : ℝ) : ℝ :=
  if 0 < x then Real.arctan (y / x)
  else if x < 0 ∧ 0 ≤ y then Real.arctan (y / x) + Real.pi
  else if x < 0 ∧ y < 0 then Real.arctan (y / x) - Real.pi
  else if x = 0 ∧ 0 < y then Real.pi / 2
  else if x = 0 ∧ y < 0 then -(Real.pi / 2)
  else 0

/-- math.degrees: radians to degrees. -/
noncomputable def degrees (x : ℝ) : ℝ := x * 180 / Real.pi

/-- The Python float modulo for a positive modulus:
    x % m = x - m * floor (x / m). -/
noncomputable def pyMod (x m : ℝ) : ℝ := x - m * (Int.floor (x / m) : ℝ)

/-- src/app.py line 272: planar edge length. -/
noncomputable def compute_distance (p1 p2 : ℝ × ℝ) : ℝ :=
  Real.sqrt ((p2.1 - p1.1) ^ 2 + (p2.2 - p1.2) ^ 2)

/-- src/app.py line 273: survey bearing of the edge from p1 to p2,
    (degrees(atan2(dE, dN)) + 360) % 360, measured clockwise from the
    northing axis. -/
noncomputable def compute_bearing (p1 p2 : ℝ × ℝ) : ℝ :=
  pyMod (degrees (atan2 (p2.1 - p1.1) (p2.2 - p1.2)) + 360) 360

/-- The list of edge bearings accumulated by the first loop of the
    computation-sheet builder (src/app.py lines 275-281). -/
noncomputable def bearingsOf (coords : List (ℝ × ℝ)) : List ℝ :=
  (List.range (coords.length - 1)).map fun i =>
    compute_bearing (coords.getD i (0, 0)) (coords.getD (i + 1) (0, 0))

/-- One data row of the computation-sheet table: point id, easting,
    northing, edge distance, edge bearing, and the optional angle column
    (`none` embeds the empty cell of the source table). -/
structure SheetRow where
  pointId : ℕ
  easting : ℝ
  northing : ℝ
  dist : ℝ
  bearing : ℝ
  angle : Option ℝ

instance : Inhabited SheetRow := ⟨⟨0, 0, 0, 0, 0, none⟩⟩

/-- Data row j (0-based; table row j+1; point id j+1) of the computation
    sheet, src/app.py lines 274-283: the first loop fills the id, the start
    vertex coordinates and the distance and bearing of edge (j, j+1); the
    second loop (`for i in range(1, n)`) overwrites the angle cell of table
    rows 1..n-1, that is of data rows j with j+1 < n, with the bearing
    difference `(bearings[j+1] - bearings[j]) % 360`; the final data row
    keeps its empty cell. -/
noncomputable def sheetRow (coords : List (ℝ × ℝ)) (j : ℕ) : SheetRow :=
  { pointId := j + 1
    easting := (coords.getD j (0, 0)).1
    northing := (coords.getD j (0, 0)).2
    dist := compute_distance (coords.getD j (0, 0)) (coords.getD (j + 1) (0, 0))
    bearing := (bearingsOf coords).getD j 0
    angle :=
      if j + 1 < coords.length - 1 then
        some (pyMod ((bearingsOf coords).getD (j + 1) 0 - (bearingsOf coords).getD j 0) 360)
      else none }

/-- The computation-sheet data rows, in ring edge order: one row per
    consecutive vertex pair of the coordinate list (n rows for the n+1
    coordinates of the closed ring), src/app.py lines 270-283. -/
noncomputable def computationSheet (coords : List (ℝ × ℝ)) : List SheetRow :=
  (List.range (coords.length - 1)).map (sheetRow coords)

/-- Euclidean magnitude of a planar vector. -/
noncomputable def vecNorm (v : ℝ × ℝ) : ℝ := Real.sqrt (v.1 ^ 2 + v.2 ^ 2)

/-- Modelled from the spec (section 4.4 Turning angle): the angle between
    the incoming and outgoing edge vectors via the dot-product / arccosine
    relation degrees(acos(dot(v1,v2) / (|v1| * |v2|))), defined as 0 when
    either vector has zero magnitude. -/
noncomputable def specTurnAngle (v1 v2 : ℝ × ℝ) : ℝ :=
  if vecNorm v1 = 0 ∨ vecNorm v2 = 0 then 0
  else degrees (Real.arccos ((v1.1 * v2.1 + v1.2 * v2.2) / (vecNorm v1 * vecNorm v2)))

/- ### Basic list lemmas for headP, lastP and closeRing -/

theorem lastP_cons_of_ne_nil (a : ℚ × ℚ) {rest : List (ℚ × ℚ)} (h : rest ≠ []) :
    lastP (a :: rest) = lastP rest := by
  cases rest with
  | nil => exact absurd rfl h
  | cons b tail => rfl

theorem lastP_mem : ∀ {l : List (ℚ × ℚ)}, l ≠ [] → lastP l ∈ l
  | [], h => absurd rfl h
  | [p], _ => by simp [lastP]
  | p :: q :: rest, _ => by
      rw [lastP_cons_of_ne_nil p (List.cons_ne_nil q rest)]
      exact List.mem_cons_of_mem p (lastP_mem (List.cons_ne_nil q rest))

theorem headP_append_of_ne_nil {l : List (ℚ × ℚ)} (h : l ≠ []) (m : List (ℚ × ℚ)) :
    headP (l ++ m) = headP l := by
  cases l with
  | nil => exact absurd rfl h
  | cons a tail => rfl

theorem lastP_append_single (l : List (ℚ × ℚ)) (x : ℚ × ℚ) :
    lastP (l ++ [x]) = x := by
  induction l with
  | nil => rfl
  | cons a tail ih =>
      cases tail with
      | nil => rfl
      | cons b rest =>
          rw [List.cons_append, lastP_cons_of_ne_nil a (by simp)]
          exact ih

/-- Unfolding of `closeRing` on a nonempty list. -/
theorem closeRing_cons (a : ℚ × ℚ) (rest : List (ℚ × ℚ)) :
    closeRing (a :: rest) =
      if a = lastP (a :: rest) then a :: rest else (a :: rest) ++ [a] := by
  show (if a ≠ lastP (a :: rest) then (a :: rest) ++ [a] else a :: rest) = _
  by_cases h : a = lastP (a :: rest)
  · rw [if_neg (not_not_intro h), if_pos h]
  · rw [if_pos h, if_neg h]

/-- Closure is idempotent (general form, used by the claim theorem and by
    the handler lemmas: the handler feeds `closeRing` output back into the
    shapely constructor, which closes again). -/
theorem closeRing_closeRing (l : List (ℚ × ℚ)) :
    closeRing (closeRing l) = closeRing l := by
  cases l with
  | nil => rfl
  | cons a rest =>
      rw [closeRing_cons]
      by_cases h : a = lastP (a :: rest)
      · rw [if_pos h, closeRing_cons, if_pos h]
      · rw [if_neg h]
        have hl : lastP ((a :: rest) ++ [a]) = a := lastP_append_single _ _
        rw [List.cons_append] at hl
        rw [List.cons_append, closeRing_cons, if_pos hl.symm]

theorem headP_closeRing {l : List (ℚ × ℚ)} (h : l ≠ []) :
    headP (closeRing l) = headP l := by
  cases l with
  | nil => exact absurd rfl h
  | cons a rest =>
      rw [closeRing_cons]
      by_cases hc : a = lastP (a :: rest)
      · rw [if_pos hc]
      · rw [if_neg hc, List.cons_append]
        rfl

theorem closeRing_closed {l : List (ℚ × ℚ)} (h : l ≠ []) :
    headP (closeRing l) = lastP (closeRing l) := by
  cases l with
  | nil => exact absurd rfl h
  | cons a rest =>
      rw [closeRing_cons]
      by_cases hc : a = lastP (a :: rest)
      · rw [if_pos hc]
        exact hc
      · rw [if_neg hc, lastP_append_single, List.cons_append]
        rfl

/- ### Shoelace sum lemmas -/

theorem crossQ_self (p : ℚ × ℚ) : cross p p = 0 := by
  unfold cross
  ring

theorem crossQ_antisym (p q : ℚ × ℚ) : cross q p = -cross p q := by
  unfold cross
  ring

theorem shoelaceSum_cons_cons (p q : ℚ × ℚ) (rest : List (ℚ × ℚ)) :
    shoelaceSum (p :: q :: rest) = cross p q + shoelaceSum (q :: rest) := rfl

theorem shoelaceSum_append_single {l : List (ℚ × ℚ)} (h : l ≠ []) (x : ℚ × ℚ) :
    shoelaceSum (l ++ [x]) = shoelaceSum l + cross (lastP l) x := by
  induction l with
  | nil => exact absurd rfl h
  | cons a rest ih =>
      cases rest with
      | nil => simp [shoelaceSum, lastP]
      | cons b tail =>
          have ih2 := ih (List.cons_ne_nil b tail)
          simp only [List.cons_append] at ih2 ⊢
          rw [shoelaceSum_cons_cons, ih2, shoelaceSum_cons_cons,
            lastP_cons_of_ne_nil a (List.cons_ne_nil b tail)]
          ring

/-- The shoelace sum over the closed ring equals the cyclic shoelace sum of
    the original list. -/
theorem shoelaceSum_closeRing {l : List (ℚ × ℚ)} (h : l ≠ []) :
    shoelaceSum (closeRing l) = cycShoelace l := by
  cases l with
  | nil => exact absurd rfl h
  | cons a rest =>
      rw [closeRing_cons]
      unfold cycShoelace
      by_cases hc : a = lastP (a :: rest)
      · rw [if_pos hc, ← hc]
        show _ = _ + cross a (headP (a :: rest))
        rw [show headP (a :: rest) = a from rfl, crossQ_self, add_zero]
      · rw [if_neg hc, shoelaceSum_append_single (List.cons_ne_nil a rest)]
        rfl

theorem headP_reverse (l : List (ℚ × ℚ)) : headP l.reverse = lastP l := by
  induction l with
  | nil => rfl
  | cons a rest ih =>
      cases rest with
      | nil => rfl
      | cons b tail =>
          rw [List.reverse_cons, lastP_cons_of_ne_nil a (List.cons_ne_nil b tail),
            headP_append_of_ne_nil (by simp) [a]]
          exact ih

theorem lastP_reverse (l : List (ℚ × ℚ)) : lastP l.reverse = headP l := by
  cases l with
  | nil => rfl
  | cons a rest =>
      rw [List.reverse_cons, lastP_append_single]
      rfl

theorem shoelaceSum_reverse (l : List (ℚ × ℚ)) :
    shoelaceSum l.reverse = -shoelaceSum l := by
  induction l with
  | nil => simp [shoelaceSum]
  | cons a rest ih =>
      cases rest with
      | nil => simp [shoelaceSum]
      | cons b tail =>
          rw [List.reverse_cons,
            shoelaceSum_append_single (by simp : (b :: tail).reverse ≠ []),
            ih, lastP_reverse, shoelaceSum_cons_cons]
          show -shoelaceSum (b :: tail) + cross (headP (b :: tail)) a = _
          rw [show headP (b :: tail) = b from rfl, crossQ_antisym]
          ring

/-- Reversing the vertex list negates the cyclic shoelace sum. -/
theorem cycShoelace_reverse (l : List (ℚ × ℚ)) :
    cycShoelace l.reverse = -cycShoelace l := by
  unfold cycShoelace
  rw [shoelaceSum_reverse, headP_reverse, lastP_reverse, crossQ_antisym]
  ring

/-- Rotating the starting vertex by one leaves the cyclic shoelace sum
    unchanged. -/
theorem cycShoelace_rotate_one (l : List (ℚ × ℚ)) :
    cycShoelace (l.rotate 1) = cycShoelace l := by
  cases l with
  | nil => rfl
  | cons a rest =>
      rw [List.rotate_cons_succ, List.rotate_zero]
      cases rest with
      | nil => rfl
      | cons b tail =>
          unfold cycShoelace
          rw [shoelaceSum_append_single (List.cons_ne_nil b tail),
            lastP_append_single, shoelaceSum_cons_cons,
            headP_append_of_ne_nil (List.cons_ne_nil b tail) [a],
            lastP_cons_of_ne_nil a (List.cons_ne_nil b tail)]
          show shoelaceSum (b :: tail) + cross (lastP (b :: tail)) a + cross a b =
            cross a b + shoelaceSum (b :: tail) + cross (lastP (b :: tail)) (headP (a :: b :: tail))
          rw [show headP (a :: b :: tail) = a from rfl]
          ring

theorem cycShoelace_rotate (l : List (ℚ × ℚ)) (n : ℕ) :
    cycShoelace (l.rotate n) = cycShoelace l := by
  induction n with
  | zero => rw [List.rotate_zero]
  | succ k ih =>
      have : l.rotate (k + 1) = (l.rotate k).rotate 1 := by
        rw [List.rotate_rotate]
      rw [this, cycShoelace_rotate_one, ih]

/-- The shoelace sum written as an indexed sum over consecutive pairs. -/
theorem shoelaceSum_eq_finset_sum (l : List (ℚ × ℚ)) :
    shoelaceSum l =
      ∑ i in Finset.range (l.length - 1),
        cross (l.getD i (0, 0)) (l.getD (i + 1) (0, 0)) := by
  induction l with
  | nil => simp [shoelaceSum]
  | cons a rest ih =>
      cases rest with
      | nil => simp [shoelaceSum]
      | cons b tail =>
          rw [shoelaceSum_cons_cons, ih]
          have hlen : (a :: b :: tail).length - 1 = (b :: tail).length := rfl
          rw [hlen, show (b :: tail).length = (b :: tail).length - 1 + 1 from rfl,
            Finset.sum_range_succ']
          simp only [List.getD]
          rw [add_comm]
          simp

/- ### Evaluation of the Plot Parcel handler -/

theorem closeRing_ne_nil {l : List (ℚ × ℚ)} (h : l ≠ []) : closeRing l ≠ [] := by
  cases l with
  | nil => exact absurd rfl h
  | cons a rest =>
      rw [closeRing_cons]
      by_cases hc : a = lastP (a :: rest)
      · rw [if_pos hc]
        exact List.cons_ne_nil a rest
      · rw [if_neg hc]
        simp

theorem headP_mem {l : List (ℚ × ℚ)} (h : l ≠ []) : headP l ∈ l := by
  cases l with
  | nil => exact absurd rfl h
  | cons a rest => exact List.mem_cons_self a rest

theorem mem_closeRing {l : List (ℚ × ℚ)} (h : l ≠ []) {x : ℚ × ℚ}
    (hx : x ∈ closeRing l) : x ∈ l := by
  cases l with
  | nil => exact absurd rfl h
  | cons a rest =>
      rw [closeRing_cons] at hx
      by_cases hc : a = lastP (a :: rest)
      · rwa [if_pos hc] at hx
      · rw [if_neg hc] at hx
        rcases List.mem_append.mp hx with h1 | h1
        · exact h1
        · rw [List.mem_singleton.mp h1]
          exact List.mem_cons_self a rest

theorem shapelyPolygonArea_closeRing {l : List (ℚ × ℚ)} (h : l ≠ [])
    (h4 : 4 ≤ (closeRing l).length) :
    shapelyPolygonArea (closeRing l) = some (|shoelaceSum (closeRing l)| / 2) := by
  obtain ⟨b, rest2, hc⟩ := List.exists_cons_of_ne_nil (closeRing_ne_nil h)
  have hidem : closeRing (b :: rest2) = b :: rest2 := by
    rw [← hc, closeRing_closeRing]
  rw [hc] at h4 ⊢
  simp only [shapelyPolygonArea, hidem]
  rw [if_neg (Nat.not_lt.mpr h4)]

/-- On any nonempty input whose closure has at least 4 coordinates, the Plot
    Parcel handler succeeds, stores exactly the closed input ring (no
    correction of any kind) and stores the shoelace magnitude as the area.
    No validity information appears anywhere in the stored result. -/
theorem plotParcel_eq {l : List (ℚ × ℚ)} (h : l ≠ []) (h4 : 4 ≤ (closeRing l).length) :
    plotParcel l =
      some { utm_coords := closeRing l, parcel_area := |shoelaceSum (closeRing l)| / 2 } := by
  obtain ⟨a, rest, rfl⟩ := List.exists_cons_of_ne_nil h
  simp only [plotParcel]
  rw [shapelyPolygonArea_closeRing h h4]
  rfl

theorem plotParcel_none {l : List (ℚ × ℚ)} (h : l ≠ [])
    (h4 : (closeRing l).length < 4) : plotParcel l = none := by
  obtain ⟨a, rest, rfl⟩ := List.exists_cons_of_ne_nil h
  obtain ⟨b, rest2, hc⟩ := List.exists_cons_of_ne_nil (closeRing_ne_nil h)
  have hidem : closeRing (b :: rest2) = b :: rest2 := by
    rw [← hc, closeRing_closeRing]
  rw [hc] at h4
  simp only [plotParcel, hc, shapelyPolygonArea, hidem]
  rw [if_pos h4]
  rfl

/- ### Telescoping: rings drawn from at most two distinct points -/

theorem crossQ_phi (a b x y : ℚ × ℚ) (hx : x = a ∨ x = b) (hy : y = a ∨ y = b) :
    cross x y =
      (if y = a then 0 else cross a b) - (if x = a then 0 else cross a b) := by
  by_cases hxa : x = a
  · by_cases hya : y = a
    · rw [if_pos hxa, if_pos hya, hxa, hya, crossQ_self]
      ring
    · have hyb : y = b := hy.resolve_left hya
      rw [if_neg hya, if_pos hxa, hxa, hyb]
      ring
  · have hxb : x = b := hx.resolve_left hxa
    by_cases hya : y = a
    · rw [if_pos hya, if_neg hxa, hxb, hya, crossQ_antisym]
      ring
    · have hyb : y = b := hy.resolve_left hya
      rw [if_neg hya, if_neg hxa, hxb, hyb, crossQ_self]
      ring

theorem shoelaceSum_telescope (a b : ℚ × ℚ) :
    ∀ l : List (ℚ × ℚ), l ≠ [] → (∀ x ∈ l, x = a ∨ x = b) →
      shoelaceSum l =
        (if lastP l = a then 0 else cross a b) - (if headP l = a then 0 else cross a b)
  | [], h, _ => absurd rfl h
  | [x], _, _ => by simp [shoelaceSum, lastP, headP]
  | x :: y :: rest, _, hmem => by
      rw [shoelaceSum_cons_cons,
        shoelaceSum_telescope a b (y :: rest) (List.cons_ne_nil y rest)
          (fun z hz => hmem z (List.mem_cons_of_mem x hz)),
        crossQ_phi a b x y (hmem x (List.mem_cons_self x (y :: rest)))
          (hmem y (by simp)),
        lastP_cons_of_ne_nil x (List.cons_ne_nil y rest)]
      rw [show headP (x :: y :: rest) = x from rfl, show headP (y :: rest) = y from rfl]
      ring

/-- A closed ring whose points are drawn from at most two distinct values has
    shoelace sum zero. -/
theorem shoelaceSum_closed_two_points {l : List (ℚ × ℚ)} (a b : ℚ × ℚ) (h : l ≠ [])
    (hmem : ∀ x ∈ l, x = a ∨ x = b) (hcl : headP l = lastP l) :
    shoelaceSum l = 0 := by
  rw [shoelaceSum_telescope a b l h hmem, hcl]
  ring

/- ### Nodup rings: closure always appends, and the handler succeeds -/

theorem headP_ne_lastP_of_nodup {l : List (ℚ × ℚ)} (hnd : l.Nodup) (h2 : 2 ≤ l.length) :
    headP l ≠ lastP l := by
  cases l with
  | nil => simp at h2
  | cons a rest =>
      cases rest with
      | nil => simp at h2
      | cons b tail =>
          rw [lastP_cons_of_ne_nil a (List.cons_ne_nil b tail)]
          intro h
          have ha : a = lastP (b :: tail) := h
          refine (List.nodup_cons.mp hnd).1 ?_
          rw [ha]
          exact lastP_mem (List.cons_ne_nil b tail)

theorem closeRing_of_ne {l : List (ℚ × ℚ)} (h : l ≠ []) (hne : headP l ≠ lastP l) :
    closeRing l = l ++ [headP l] := by
  cases l with
  | nil => exact absurd rfl h
  | cons a rest =>
      have hne2 : a ≠ lastP (a :: rest) := hne
      rw [closeRing_cons, if_neg hne2]
      rfl

theorem plotParcel_of_nodup {l : List (ℚ × ℚ)} (hnd : l.Nodup) (h3 : 3 ≤ l.length) :
    plotParcel l =
      some { utm_coords := l ++ [headP l], parcel_area := |cycShoelace l| / 2 } := by
  have hne : l ≠ [] := by
    intro h
    rw [h] at h3
    simp at h3
  have hhl : headP l ≠ lastP l :=
    headP_ne_lastP_of_nodup hnd (le_trans (by norm_num) h3)
  have hcr : closeRing l = l ++ [headP l] := closeRing_of_ne hne hhl
  have h4 : 4 ≤ (closeRing l).length := by
    rw [hcr, List.length_append, List.length_singleton]
    omega
  rw [plotParcel_eq hne h4, shoelaceSum_closeRing hne, hcr]

/- ### Claim C9: closure is idempotent -/

/-- C9: ring closure (append a copy of the first point when it differs from
    the last, src/app.py lines 234-235) is idempotent: closing a closed ring
    a second time changes nothing.  The hypothesis restricts to nonempty
    rings, the only ones on which the source operation is defined
    (`utm_coords[0]` would raise on an empty list). -/
theorem closure_idempotent (r : List (ℚ × ℚ)) (h : r ≠ []) :
    closeRing (closeRing r) = closeRing r :=
  closeRing_closeRing r

/-- Witness for C9 at the open triangle (0,0), (10,0), (0,10). -/
theorem closure_idempotent_witness :
    [((0 : ℚ), (0 : ℚ)), (10, 0), (0, 10)] ≠ [] ∧
      closeRing (closeRing [((0 : ℚ), (0 : ℚ)), (10, 0), (0, 10)]) =
        closeRing [((0 : ℚ), (0 : ℚ)), (10, 0), (0, 10)] :=
  ⟨by decide, closure_idempotent [((0 : ℚ), (0 : ℚ)), (10, 0), (0, 10)] (by decide)⟩

/- ### Claim C5: the reported area is the shoelace magnitude -/

/-- C5: whenever the Plot Parcel handler reports a result, the reported area
    equals the absolute value of the shoelace sum over the closed ring,
    halved, and is therefore non-negative. -/
theorem area_is_shoelace_magnitude (r : List (ℚ × ℚ)) (res : ParcelResult)
    (h : plotParcel r = some res) :
    res.parcel_area =
      |∑ i in Finset.range ((closeRing r).length - 1),
        (((closeRing r).getD i (0, 0)).1 * ((closeRing r).getD (i + 1) (0, 0)).2 -
          ((closeRing r).getD (i + 1) (0, 0)).1 * ((closeRing r).getD i (0, 0)).2)| / 2 ∧
      0 ≤ res.parcel_area := by
  have hne : r ≠ [] := by
    intro hr
    rw [hr] at h
    exact Option.noConfusion h
  by_cases h4 : 4 ≤ (closeRing r).length
  · rw [plotParcel_eq hne h4] at h
    obtain rfl := Option.some.inj h
    constructor
    · show |shoelaceSum (closeRing r)| / 2 = _
      rw [shoelaceSum_eq_finset_sum]
      rfl
    · exact div_nonneg (abs_nonneg _) (by norm_num)
  · rw [plotParcel_none hne (Nat.lt_of_not_le h4)] at h
    exact Option.noConfusion h

/-- Evaluation of the handler at the square (0,0), (0,100), (100,100),
    (100,0): the closed square is stored and its area is 10000. -/
theorem plotParcel_square :
    plotParcel [((0 : ℚ), (0 : ℚ)), (0, 100), (100, 100), (100, 0)] =
      some { utm_coords := [((0 : ℚ), (0 : ℚ)), (0, 100), (100, 100), (100, 0), (0, 0)],
             parcel_area := 10000 } := by
  have h1 : closeRing [((0 : ℚ), (0 : ℚ)), (0, 100), (100, 100), (100, 0)] =
      [((0 : ℚ), (0 : ℚ)), (0, 100), (100, 100), (100, 0), (0, 0)] := by decide
  rw [plotParcel_eq (by decide) (by rw [h1]; decide), h1]
  norm_num [shoelaceSum, cross]

/-- Witness for C5 at the square (0,0), (0,100), (100,100), (100,0):
    the handler reports area 10000 and the shoelace identity holds there. -/
theorem area_is_shoelace_magnitude_witness :
    plotParcel [((0 : ℚ), (0 : ℚ)), (0, 100), (100, 100), (100, 0)] =
      some { utm_coords := [((0 : ℚ), (0 : ℚ)), (0, 100), (100, 100), (100, 0), (0, 0)],
             parcel_area := 10000 } ∧
    (({ utm_coords := [((0 : ℚ), (0 : ℚ)), (0, 100), (100, 100), (100, 0), (0, 0)],
        parcel_area := 10000 } : ParcelResult).parcel_area =
      |∑ i in Finset.range
          ((closeRing [((0 : ℚ), (0 : ℚ)), (0, 100), (100, 100), (100, 0)]).length - 1),
        (((closeRing [((0 : ℚ), (0 : ℚ)), (0, 100), (100, 100), (100, 0)]).getD i (0, 0)).1 *
            ((closeRing [((0 : ℚ), (0 : ℚ)), (0, 100), (100, 100), (100, 0)]).getD (i + 1) (0, 0)).2 -
          ((closeRing [((0 : ℚ), (0 : ℚ)), (0, 100), (100, 100), (100, 0)]).getD (i + 1) (0, 0)).1 *
            ((closeRing [((0 : ℚ), (0 : ℚ)), (0, 100), (100, 100), (100, 0)]).getD i (0, 0)).2)| / 2 ∧
      0 ≤ ({ utm_coords := [((0 : ℚ), (0 : ℚ)), (0, 100), (100, 100), (100, 0), (0, 0)],
             parcel_area := 10000 } : ParcelResult).parcel_area) :=
  ⟨plotParcel_square,
    area_is_shoelace_magnitude [((0 : ℚ), (0 : ℚ)), (0, 100), (100, 100), (100, 0)]
      { utm_coords := [((0 : ℚ), (0 : ℚ)), (0, 100), (100, 100), (100, 0), (0, 0)],
        parcel_area := 10000 } plotParcel_square⟩

/- ### Claim C1: self-intersecting rings are processed, not rejected -/

/-- Evaluation of the handler at the self-intersecting bowtie ring
    (0,0), (2,2), (2,0), (0,2): its two diagonal edges cross at (1,1), yet
    the handler succeeds and reports the (cancelling) shoelace area 0. -/
theorem plotParcel_bowtie :
    plotParcel [((0 : ℚ), (0 : ℚ)), (2, 2), (2, 0), (0, 2)] =
      some { utm_coords := [((0 : ℚ), (0 : ℚ)), (2, 2), (2, 0), (0, 2), (0, 0)],
             parcel_area := 0 } := by
  have h1 : closeRing [((0 : ℚ), (0 : ℚ)), (2, 2), (2, 0), (0, 2)] =
      [((0 : ℚ), (0 : ℚ)), (2, 2), (2, 0), (0, 2), (0, 0)] := by decide
  rw [plotParcel_eq (by decide) (by rw [h1]; decide), h1]
  norm_num [shoelaceSum, cross]

/-- Counterexample for C1: for the self-intersecting bowtie ring the Plot
    Parcel handler does not reject the ring and attaches no validity
    information: it returns an ordinary success record (exactly the closed
    input ring plus an area), indistinguishable in shape from the result of
    a valid ring.  The stored result type has no `isValid` field at all. -/
theorem self_intersecting_ring_not_rejected :
    plotParcel [((0 : ℚ), (0 : ℚ)), (2, 2), (2, 0), (0, 2)] =
      some { utm_coords := [((0 : ℚ), (0 : ℚ)), (2, 2), (2, 0), (0, 2), (0, 0)],
             parcel_area := 0 } ∧
    plotParcel [((0 : ℚ), (0 : ℚ)), (2, 2), (2, 0), (0, 2)] ≠ none :=
  ⟨plotParcel_bowtie, by rw [plotParcel_bowtie]; exact Option.noConfusion⟩

/-- C1 (amended): for every input ring whose closure has at least 4
    coordinates (in particular every self-intersecting closed ring), the
    parcel analysis completes, reports the best-effort shoelace magnitude
    as the area, and stores exactly the closed input ring: the ring is
    neither rejected nor corrected, and no validity flag exists in the
    result. -/
theorem parcel_analysis_completes_uncorrected (r : List (ℚ × ℚ)) (h : r ≠ [])
    (h4 : 4 ≤ (closeRing r).length) :
    plotParcel r =
      some { utm_coords := closeRing r, parcel_area := |shoelaceSum (closeRing r)| / 2 } :=
  plotParcel_eq h h4

/-- Witness for the amended C1 at the bowtie ring. -/
theorem parcel_analysis_completes_uncorrected_witness :
    ([((0 : ℚ), (0 : ℚ)), (2, 2), (2, 0), (0, 2)] ≠ [] ∧
      4 ≤ (closeRing [((0 : ℚ), (0 : ℚ)), (2, 2), (2, 0), (0, 2)]).length) ∧
    plotParcel [((0 : ℚ), (0 : ℚ)), (2, 2), (2, 0), (0, 2)] =
      some { utm_coords := closeRing [((0 : ℚ), (0 : ℚ)), (2, 2), (2, 0), (0, 2)],
             parcel_area :=
               |shoelaceSum (closeRing [((0 : ℚ), (0 : ℚ)), (2, 2), (2, 0), (0, 2)])| / 2 } :=
  ⟨⟨by decide, by decide⟩,
    parcel_analysis_completes_uncorrected [((0 : ℚ), (0 : ℚ)), (2, 2), (2, 0), (0, 2)]
      (by decide) (by decide)⟩

/- ### Claim C4: rings with fewer than 3 distinct points -/

/-- Evaluation of the handler at (0,0), (0,0), (1,1): only two distinct
    points, yet the handler succeeds with area 0. -/
theorem plotParcel_two_distinct :
    plotParcel [((0 : ℚ), (0 : ℚ)), (0, 0), (1, 1)] =
      some { utm_coords := [((0 : ℚ), (0 : ℚ)), (0, 0), (1, 1), (0, 0)],
             parcel_area := 0 } := by
  have h1 : closeRing [((0 : ℚ), (0 : ℚ)), (0, 0), (1, 1)] =
      [((0 : ℚ), (0 : ℚ)), (0, 0), (1, 1), (0, 0)] := by decide
  rw [plotParcel_eq (by decide) (by rw [h1]; decide), h1]
  norm_num [shoelaceSum, cross]

/-- Counterexample for C4: the ring (0,0), (0,0), (1,1) has fewer than 3
    distinct points, yet the parcel computation does not fail: it produces
    a complete Survey-style result (closed ring and area 0) with no
    InvalidRingError anywhere in the code path. -/
theorem few_distinct_points_not_rejected :
    (∀ x ∈ [((0 : ℚ), (0 : ℚ)), (0, 0), (1, 1)],
        x = ((0 : ℚ), (0 : ℚ)) ∨ x = ((1 : ℚ), (1 : ℚ))) ∧
    plotParcel [((0 : ℚ), (0 : ℚ)), (0, 0), (1, 1)] =
      some { utm_coords := [((0 : ℚ), (0 : ℚ)), (0, 0), (1, 1), (0, 0)],
             parcel_area := 0 } :=
  ⟨by decide, plotParcel_two_distinct⟩

/-- C4 (amended): a ring drawn from at most two distinct points is not
    rejected: whenever its closure has at least 4 coordinates the handler
    completes normally, storing the closed ring with area 0 (all such rings
    are degenerate, so the shoelace sum telescopes to zero).  No
    InvalidRingError exists in the code. -/
theorem degenerate_ring_completes (r : List (ℚ × ℚ)) (a b : ℚ × ℚ)
    (hmem : ∀ x ∈ r, x = a ∨ x = b) (h4 : 4 ≤ (closeRing r).length) :
    plotParcel r = some { utm_coords := closeRing r, parcel_area := 0 } := by
  have hne : r ≠ [] := by
    intro hr
    rw [hr] at h4
    simp [closeRing] at h4
  have hmem2 : ∀ x ∈ closeRing r, x = a ∨ x = b := fun x hx =>
    hmem x (mem_closeRing hne hx)
  have hz : shoelaceSum (closeRing r) = 0 :=
    shoelaceSum_closed_two_points a b (closeRing_ne_nil hne) hmem2 (closeRing_closed hne)
  rw [plotParcel_eq hne h4, hz]
  norm_num

/-- Witness for the amended C4 at (0,0), (0,0), (1,1). -/
theorem degenerate_ring_completes_witness :
    ((∀ x ∈ [((0 : ℚ), (0 : ℚ)), (0, 0), (1, 1)],
        x = ((0 : ℚ), (0 : ℚ)) ∨ x = ((1 : ℚ), (1 : ℚ))) ∧
      4 ≤ (closeRing [((0 : ℚ), (0 : ℚ)), (0, 0), (1, 1)]).length) ∧
    plotParcel [((0 : ℚ), (0 : ℚ)), (0, 0), (1, 1)] =
      some { utm_coords := closeRing [((0 : ℚ), (0 : ℚ)), (0, 0), (1, 1)],
             parcel_area := 0 } :=
  ⟨⟨by decide, by decide⟩,
    degenerate_ring_completes [((0 : ℚ), (0 : ℚ)), (0, 0), (1, 1)]
      ((0 : ℚ), (0 : ℚ)) ((1 : ℚ), (1 : ℚ)) (by decide) (by decide)⟩

/- ### Claim C7: area invariance under reversal and rotation -/

/-- C7: for rings with pairwise distinct vertices (as any valid simple ring
    has) and at least 3 of them, the area reported by the handler is
    unchanged by reversing the vertex order and by any cyclic rotation of
    the starting vertex. -/
theorem area_invariant_reverse_rotate (r : List (ℚ × ℚ)) (hnd : r.Nodup)
    (h3 : 3 ≤ r.length) :
    (plotParcel r.reverse).map ParcelResult.parcel_area =
      (plotParcel r).map ParcelResult.parcel_area ∧
    ∀ k : ℕ, (plotParcel (r.rotate k)).map ParcelResult.parcel_area =
      (plotParcel r).map ParcelResult.parcel_area := by
  constructor
  · rw [plotParcel_of_nodup hnd h3,
      plotParcel_of_nodup (List.nodup_reverse.mpr hnd) (by simpa using h3)]
    simp only [Option.map_some']
    rw [cycShoelace_reverse, abs_neg]
  · intro k
    rw [plotParcel_of_nodup hnd h3,
      plotParcel_of_nodup (List.nodup_rotate.mpr hnd)
        (by simpa [List.length_rotate] using h3)]
    simp only [Option.map_some']
    rw [cycShoelace_rotate]

/-- Witness for C7 at the square (0,0), (0,100), (100,100), (100,0). -/
theorem area_invariant_reverse_rotate_witness :
    (([((0 : ℚ), (0 : ℚ)), (0, 100), (100, 100), (100, 0)] : List (ℚ × ℚ)).Nodup ∧
      3 ≤ ([((0 : ℚ), (0 : ℚ)), (0, 100), (100, 100), (100, 0)] : List (ℚ × ℚ)).length) ∧
    ((plotParcel ([((0 : ℚ), (0 : ℚ)), (0, 100), (100, 100), (100, 0)] : List (ℚ × ℚ)).reverse).map
        ParcelResult.parcel_area =
      (plotParcel [((0 : ℚ), (0 : ℚ)), (0, 100), (100, 100), (100, 0)]).map
        ParcelResult.parcel_area ∧
    ∀ k : ℕ,
      (plotParcel (([((0 : ℚ), (0 : ℚ)), (0, 100), (100, 100), (100, 0)] :
          List (ℚ × ℚ)).rotate k)).map ParcelResult.parcel_area =
        (plotParcel [((0 : ℚ), (0 : ℚ)), (0, 100), (100, 100), (100, 0)]).map
          ParcelResult.parcel_area) :=
  ⟨⟨by decide, by decide⟩,
    area_invariant_reverse_rotate [((0 : ℚ), (0 : ℚ)), (0, 100), (100, 100), (100, 0)]
      (by decide) (by decide)⟩

/- ### Claim C3: the reported centroid -/

/-- Counterexample for C3 at the closed triangle (0,0), (10,0), (0,10),
    (0,0): the signed shoelace area is 50, not zero, so the claimed
    area-weighted formula applies and yields (10/3, 10/3), but the code
    (src/app.py lines 253-254) reports the arithmetic mean (5/2, 5/2) of
    the four coordinates of the closed ring. -/
theorem centroid_not_area_weighted :
    shoelaceSum [((0 : ℚ), (0 : ℚ)), (10, 0), (0, 10), (0, 0)] / 2 ≠ 0 ∧
    sessionCentroid [((0 : ℚ), (0 : ℚ)), (10, 0), (0, 10), (0, 0)] ≠
      specCentroid [((0 : ℚ), (0 : ℚ)), (10, 0), (0, 10), (0, 0)] := by
  constructor
  · norm_num [shoelaceSum, cross]
  · norm_num [sessionCentroid, specCentroid, shoelaceSum, cross, List.getD,
      Finset.sum_range_succ, Finset.sum_range_zero, Prod.ext_iff]

/-- C3 (amended): the reported centroid is always the arithmetic mean of the
    coordinates of the closed ring (with the duplicated closing vertex
    included in the average), regardless of the polygon's area; for an
    unclosed input ring of n points it equals the vertex sum plus one extra
    copy of the first vertex, divided by n + 1. -/
theorem centroid_is_closed_ring_mean (r : List (ℚ × ℚ)) (h : r ≠ [])
    (hne : headP r ≠ lastP r) :
    sessionCentroid (closeRing r) =
      (((r.map Prod.fst).sum + (headP r).1) / ((r.length : ℚ) + 1),
        ((r.map Prod.snd).sum + (headP r).2) / ((r.length : ℚ) + 1)) := by
  rw [closeRing_of_ne h hne]
  unfold sessionCentroid
  simp only [List.map_append, List.sum_append, List.length_append, List.map_cons,
    List.map_nil, List.sum_cons, List.sum_nil, List.length_cons, List.length_nil]
  push_cast
  norm_num

/-- Witness for the amended C3 at the open triangle (0,0), (10,0), (0,10). -/
theorem centroid_is_closed_ring_mean_witness :
    ([((0 : ℚ), (0 : ℚ)), (10, 0), (0, 10)] ≠ [] ∧
      headP [((0 : ℚ), (0 : ℚ)), (10, 0), (0, 10)] ≠
        lastP [((0 : ℚ), (0 : ℚ)), (10, 0), (0, 10)]) ∧
    sessionCentroid (closeRing [((0 : ℚ), (0 : ℚ)), (10, 0), (0, 10)]) =
      ((([((0 : ℚ), (0 : ℚ)), (10, 0), (0, 10)].map Prod.fst).sum +
          (headP [((0 : ℚ), (0 : ℚ)), (10, 0), (0, 10)]).1) /
        (([((0 : ℚ), (0 : ℚ)), (10, 0), (0, 10)].length : ℚ) + 1),
        (([((0 : ℚ), (0 : ℚ)), (10, 0), (0, 10)].map Prod.snd).sum +
          (headP [((0 : ℚ), (0 : ℚ)), (10, 0), (0, 10)]).2) /
        (([((0 : ℚ), (0 : ℚ)), (10, 0), (0, 10)].length : ℚ) + 1)) :=
  ⟨⟨by decide, by decide⟩,
    centroid_is_closed_ring_mean [((0 : ℚ), (0 : ℚ)), (10, 0), (0, 10)]
      (by decide) (by decide)⟩

/- ### Claim C8: first match in load-order, none on no match -/

/-- C8: the containment query returns the first region in load-order that
    contains the point (overlapping matches are resolved by order), and
    returns no match, not an error, when no region contains the point. -/
theorem containment_first_match (regs : List Region) (p : ℚ × ℚ) :
    ((∀ r ∈ regs, ¬ regionContains r p) → containingRegion regs p = none) ∧
    ∀ i : Fin regs.length, regionContains (regs.get i) p →
      (∀ j : Fin regs.length, (j : ℕ) < (i : ℕ) → ¬ regionContains (regs.get j) p) →
      containingRegion regs p = some (regs.get i) := by
  constructor
  · intro hall
    unfold containingRegion
    rw [List.find?_eq_none]
    intro r hr
    simpa using hall r hr
  · induction regs with
    | nil =>
        intro i
        exact absurd i.2 (by simp)
    | cons a tl ih =>
        intro i hc hprev
        obtain ⟨iv, hiv⟩ := i
        cases iv with
        | zero =>
            unfold containingRegion
            rw [List.find?_cons_of_pos _ (by simpa using hc)]
            rfl
        | succ n =>
            have h0 : ¬ regionContains a p := by
              have := hprev ⟨0, by omega⟩ (by simp)
              simpa using this
            unfold containingRegion
            rw [List.find?_cons_of_neg _ (by simpa using h0)]
            have hn : n < tl.length := by simpa using hiv
            have hc2 : regionContains (tl.get ⟨n, hn⟩) p := hc
            have hprev2 : ∀ j : Fin tl.length, (j : ℕ) < n →
                ¬ regionContains (tl.get j) p := by
              intro j hj
              have := hprev ⟨(j : ℕ) + 1, by omega⟩ (by simpa using hj)
              simpa using this
            exact ih ⟨n, hn⟩ hc2 hprev2

/- ### Claim C10: containment is boundary-exclusive -/

/-- C10: a geographic point lying exactly on the boundary edge of some
    region's polygon and not strictly inside any region (every odd-parity
    ring has it on its boundary) is reported as no match: the `contains`
    test requires interior membership. -/
theorem containment_boundary_exclusive (regs : List Region) (p : ℚ × ℚ)
    (r0 : Region) (h0 : r0 ∈ regs)
    (hb : ∃ ring ∈ r0.polys, onRingBoundary p ring)
    (hni : ∀ r ∈ regs, ∀ ring ∈ r.polys, Odd (crossNum p ring) → onRingBoundary p ring) :
    containingRegion regs p = none := by
  unfold containingRegion
  rw [List.find?_eq_none]
  intro r hr
  simp only [decide_eq_true_eq]
  rintro ⟨ring, hring, hodd, hnb⟩
  exact hnb (hni r hr ring hring hodd)

/-- Witness for C8: the point (3/2, 3/2) lies inside both of two overlapping
    regions, and the scan returns the first one in load-order. -/
theorem containment_first_match_witness :
    regionContains ⟨"A", [[((0 : ℚ), (0 : ℚ)), (2, 0), (2, 2), (0, 2), (0, 0)]]⟩
      ((3 : ℚ) / 2, (3 : ℚ) / 2) ∧
    regionContains ⟨"B", [[((1 : ℚ), (1 : ℚ)), (3, 1), (3, 3), (1, 3), (1, 1)]]⟩
      ((3 : ℚ) / 2, (3 : ℚ) / 2) ∧
    containingRegion
        [⟨"A", [[((0 : ℚ), (0 : ℚ)), (2, 0), (2, 2), (0, 2), (0, 0)]]⟩,
         ⟨"B", [[((1 : ℚ), (1 : ℚ)), (3, 1), (3, 3), (1, 3), (1, 1)]]⟩]
        ((3 : ℚ) / 2, (3 : ℚ) / 2) =
      some ⟨"A", [[((0 : ℚ), (0 : ℚ)), (2, 0), (2, 2), (0, 2), (0, 0)]]⟩ := by
  have hA : regionContains ⟨"A", [[((0 : ℚ), (0 : ℚ)), (2, 0), (2, 2), (0, 2), (0, 0)]]⟩
      ((3 : ℚ) / 2, (3 : ℚ) / 2) := by
    refine ⟨[((0 : ℚ), (0 : ℚ)), (2, 0), (2, 2), (0, 2), (0, 0)], by simp, ?_, ?_⟩
    · norm_num [crossNum, ringEdges, rayCrosses, List.countP_cons, List.countP_nil]
    · norm_num [onRingBoundary, ringEdges, onSegment]
  have hB : regionContains ⟨"B", [[((1 : ℚ), (1 : ℚ)), (3, 1), (3, 3), (1, 3), (1, 1)]]⟩
      ((3 : ℚ) / 2, (3 : ℚ) / 2) := by
    refine ⟨[((1 : ℚ), (1 : ℚ)), (3, 1), (3, 3), (1, 3), (1, 1)], by simp, ?_, ?_⟩
    · norm_num [crossNum, ringEdges, rayCrosses, List.countP_cons, List.countP_nil]
    · norm_num [onRingBoundary, ringEdges, onSegment]
  refine ⟨hA, hB, ?_⟩
  exact (containment_first_match
      [⟨"A", [[((0 : ℚ), (0 : ℚ)), (2, 0), (2, 2), (0, 2), (0, 0)]]⟩,
       ⟨"B", [[((1 : ℚ), (1 : ℚ)), (3, 1), (3, 3), (1, 3), (1, 1)]]⟩]
      ((3 : ℚ) / 2, (3 : ℚ) / 2)).2 ⟨0, by norm_num⟩ hA
      (fun j hj => absurd hj (Nat.not_lt_zero _))

/-- Witness for C10: the point (0, 1/2) lies exactly on the left edge of the
    unit-square region and strictly inside no region; the scan reports no
    match. -/
theorem containment_boundary_exclusive_witness :
    (∃ ring ∈ (⟨"R", [[((0 : ℚ), (0 : ℚ)), (1, 0), (1, 1), (0, 1), (0, 0)]]⟩ : Region).polys,
        onRingBoundary ((0 : ℚ), (1 : ℚ) / 2) ring) ∧
    (∀ r ∈ [(⟨"R", [[((0 : ℚ), (0 : ℚ)), (1, 0), (1, 1), (0, 1), (0, 0)]]⟩ : Region)],
        ∀ ring ∈ r.polys, Odd (crossNum ((0 : ℚ), (1 : ℚ) / 2) ring) →
          onRingBoundary ((0 : ℚ), (1 : ℚ) / 2) ring) ∧
    containingRegion [⟨"R", [[((0 : ℚ), (0 : ℚ)), (1, 0), (1, 1), (0, 1), (0, 0)]]⟩]
      ((0 : ℚ), (1 : ℚ) / 2) = none := by
  have hbd : onRingBoundary ((0 : ℚ), (1 : ℚ) / 2)
      [((0 : ℚ), (0 : ℚ)), (1, 0), (1, 1), (0, 1), (0, 0)] := by
    norm_num [onRingBoundary, ringEdges, onSegment]
  have hni : ∀ r ∈ [(⟨"R", [[((0 : ℚ), (0 : ℚ)), (1, 0), (1, 1), (0, 1), (0, 0)]]⟩ : Region)],
      ∀ ring ∈ r.polys, Odd (crossNum ((0 : ℚ), (1 : ℚ) / 2) ring) →
        onRingBoundary ((0 : ℚ), (1 : ℚ) / 2) ring := by
    intro r hr ring hring _
    obtain rfl := List.mem_singleton.mp hr
    obtain rfl := List.mem_singleton.mp hring
    exact hbd
  refine ⟨⟨[((0 : ℚ), (0 : ℚ)), (1, 0), (1, 1), (0, 1), (0, 0)], by simp, hbd⟩, hni, ?_⟩
  exact containment_boundary_exclusive
    [⟨"R", [[((0 : ℚ), (0 : ℚ)), (1, 0), (1, 1), (0, 1), (0, 0)]]⟩]
    ((0 : ℚ), (1 : ℚ) / 2)
    ⟨"R", [[((0 : ℚ), (0 : ℚ)), (1, 0), (1, 1), (0, 1), (0, 0)]]⟩
    (by simp)
    ⟨[((0 : ℚ), (0 : ℚ)), (1, 0), (1, 1), (0, 1), (0, 0)], by simp, hbd⟩ hni

/- ### List access and Python modulo lemmas -/

theorem getD_range_map {α : Type} (f : ℕ → α) (n j : ℕ) (d : α) (h : j < n) :
    ((List.range n).map f).getD j d = f j := by
  rw [List.getD_eq_getElem?_getD, List.getElem?_map, List.getElem?_range h]
  rfl

theorem pyMod_fract (x : ℝ) {m : ℝ} (hm : 0 < m) : pyMod x m = m * Int.fract (x / m) := by
  unfold pyMod
  rw [Int.fract]
  field_simp

theorem pyMod_nonneg (x : ℝ) {m : ℝ} (hm : 0 < m) : 0 ≤ pyMod x m := by
  rw [pyMod_fract x hm]
  exact mul_nonneg hm.le (Int.fract_nonneg _)

theorem pyMod_lt (x : ℝ) {m : ℝ} (hm : 0 < m) : pyMod x m < m := by
  rw [pyMod_fract x hm]
  calc m * Int.fract (x / m) < m * 1 :=
        mul_lt_mul_of_pos_left (Int.fract_lt_one _) hm
    _ = m := mul_one m

theorem pyMod_eval (x m : ℝ) (k : ℤ) (hm : 0 < m) (h1 : m * k ≤ x)
    (h2 : x < m * (k + 1)) : pyMod x m = x - m * k := by
  unfold pyMod
  have hf : Int.floor (x / m) = k := by
    rw [Int.floor_eq_iff]
    constructor
    · rw [le_div_iff hm]
      linarith
    · rw [div_lt_iff hm]
      push_cast
      linarith
  rw [hf]

/- ### Concrete bearing evaluations -/

theorem atan2_of_pos_x (y x : ℝ) (hx : 0 < x) : atan2 y x = Real.arctan (y / x) := by
  unfold atan2
  rw [if_pos hx]

theorem atan2_zero_x_pos_y (y : ℝ) (hy : 0 < y) : atan2 y 0 = Real.pi / 2 := by
  unfold atan2
  rw [if_neg (lt_irrefl 0), if_neg (by simp), if_neg (by simp), if_pos ⟨rfl, hy⟩]

theorem degrees_zero : degrees 0 = 0 := by
  unfold degrees
  ring

theorem degrees_pi_div_two : degrees (Real.pi / 2) = 90 := by
  unfold degrees
  field_simp
  ring

theorem bearing_due_east : compute_bearing ((0 : ℝ), (0 : ℝ)) (100, 0) = 90 := by
  unfold compute_bearing
  norm_num
  rw [atan2_zero_x_pos_y 100 (by norm_num), degrees_pi_div_two,
    pyMod_eval (90 + 360) 360 1 (by norm_num) (by norm_num) (by norm_num)]
  norm_num

theorem bearing_due_north : compute_bearing ((100 : ℝ), (0 : ℝ)) (100, 100) = 0 := by
  unfold compute_bearing
  norm_num
  rw [atan2_of_pos_x 0 100 (by norm_num)]
  norm_num [Real.arctan_zero, degrees_zero]
  rw [pyMod_eval 360 360 1 (by norm_num) (by norm_num) (by norm_num)]
  norm_num

/- ### Claim C6: one record per edge, distance and bearing formulas -/

/-- C6: the computation sheet emits exactly one record per consecutive
    vertex pair, in ring edge order; record j carries point id j+1, the
    start vertex coordinates, distance sqrt(dx^2 + dy^2) and bearing
    (degrees(atan2(dx, dy)) + 360) mod 360 of the easting/northing deltas,
    and every bearing lies in [0, 360). -/
theorem sheet_edge_records (coords : List (ℝ × ℝ)) (h2 : 2 ≤ coords.length) :
    (computationSheet coords).length = coords.length - 1 ∧
    ∀ j, j < coords.length - 1 →
      ((computationSheet coords).getD j default).pointId = j + 1 ∧
      ((computationSheet coords).getD j default).easting = (coords.getD j (0, 0)).1 ∧
      ((computationSheet coords).getD j default).northing = (coords.getD j (0, 0)).2 ∧
      ((computationSheet coords).getD j default).dist =
        Real.sqrt (((coords.getD (j + 1) (0, 0)).1 - (coords.getD j (0, 0)).1) ^ 2 +
          ((coords.getD (j + 1) (0, 0)).2 - (coords.getD j (0, 0)).2) ^ 2) ∧
      ((computationSheet coords).getD j default).bearing =
        pyMod (degrees (atan2 ((coords.getD (j + 1) (0, 0)).1 - (coords.getD j (0, 0)).1)
          ((coords.getD (j + 1) (0, 0)).2 - (coords.getD j (0, 0)).2)) + 360) 360 ∧
      0 ≤ ((computationSheet coords).getD j default).bearing ∧
      ((computationSheet coords).getD j default).bearing < 360 := by
  constructor
  · unfold computationSheet
    simp
  · intro j hj
    have hrow : (computationSheet coords).getD j default = sheetRow coords j := by
      unfold computationSheet
      exact getD_range_map _ _ _ _ hj
    have hb : (sheetRow coords j).bearing =
        compute_bearing (coords.getD j (0, 0)) (coords.getD (j + 1) (0, 0)) := by
      show (bearingsOf coords).getD j 0 = _
      unfold bearingsOf
      exact getD_range_map _ _ _ _ hj
    rw [hrow]
    refine ⟨rfl, rfl, rfl, rfl, ?_, ?_, ?_⟩
    · exact hb
    · rw [hb]
      exact pyMod_nonneg _ (by norm_num)
    · rw [hb]
      exact pyMod_lt _ (by norm_num)

/-- Witness for C6 at the closed square ring (0,0), (0,100), (100,100),
    (100,0), (0,0). -/
theorem sheet_edge_records_witness :
    2 ≤ ([((0 : ℝ), (0 : ℝ)), (0, 100), (100, 100), (100, 0), (0, 0)] : List (ℝ × ℝ)).length ∧
    ((computationSheet [((0 : ℝ), (0 : ℝ)), (0, 100), (100, 100), (100, 0), (0, 0)]).length =
      ([((0 : ℝ), (0 : ℝ)), (0, 100), (100, 100), (100, 0), (0, 0)] : List (ℝ × ℝ)).length - 1 ∧
    ∀ j, j < ([((0 : ℝ), (0 : ℝ)), (0, 100), (100, 100), (100, 0), (0, 0)] :
        List (ℝ × ℝ)).length - 1 →
      ((computationSheet [((0 : ℝ), (0 : ℝ)), (0, 100), (100, 100), (100, 0), (0, 0)]).getD j
          default).pointId = j + 1 ∧
      ((computationSheet [((0 : ℝ), (0 : ℝ)), (0, 100), (100, 100), (100, 0), (0, 0)]).getD j
          default).easting =
        (([((0 : ℝ), (0 : ℝ)), (0, 100), (100, 100), (100, 0), (0, 0)] :
          List (ℝ × ℝ)).getD j (0, 0)).1 ∧
      ((computationSheet [((0 : ℝ), (0 : ℝ)), (0, 100), (100, 100), (100, 0), (0, 0)]).getD j
          default).northing =
        (([((0 : ℝ), (0 : ℝ)), (0, 100), (100, 100), (100, 0), (0, 0)] :
          List (ℝ × ℝ)).getD j (0, 0)).2 ∧
      ((computationSheet [((0 : ℝ), (0 : ℝ)), (0, 100), (100, 100), (100, 0), (0, 0)]).getD j
          default).dist =
        Real.sqrt (((([((0 : ℝ), (0 : ℝ)), (0, 100), (100, 100), (100, 0), (0, 0)] :
            List (ℝ × ℝ)).getD (j + 1) (0, 0)).1 -
          (([((0 : ℝ), (0 : ℝ)), (0, 100), (100, 100), (100, 0), (0, 0)] :
            List (ℝ × ℝ)).getD j (0, 0)).1) ^ 2 +
          ((([((0 : ℝ), (0 : ℝ)), (0, 100), (100, 100), (100, 0), (0, 0)] :
            List (ℝ × ℝ)).getD (j + 1) (0, 0)).2 -
          (([((0 : ℝ), (0 : ℝ)), (0, 100), (100, 100), (100, 0), (0, 0)] :
            List (ℝ × ℝ)).getD j (0, 0)).2) ^ 2) ∧
      ((computationSheet [((0 : ℝ), (0 : ℝ)), (0, 100), (100, 100), (100, 0), (0, 0)]).getD j
          default).bearing =
        pyMod (degrees (atan2
          ((([((0 : ℝ), (0 : ℝ)), (0, 100), (100, 100), (100, 0), (0, 0)] :
            List (ℝ × ℝ)).getD (j + 1) (0, 0)).1 -
          (([((0 : ℝ), (0 : ℝ)), (0, 100), (100, 100), (100, 0), (0, 0)] :
            List (ℝ × ℝ)).getD j (0, 0)).1)
          ((([((0 : ℝ), (0 : ℝ)), (0, 100), (100, 100), (100, 0), (0, 0)] :
            List (ℝ × ℝ)).getD (j + 1) (0, 0)).2 -
          (([((0 : ℝ), (0 : ℝ)), (0, 100), (100, 100), (100, 0), (0, 0)] :
            List (ℝ × ℝ)).getD j (0, 0)).2)) + 360) 360 ∧
      0 ≤ ((computationSheet [((0 : ℝ), (0 : ℝ)), (0, 100), (100, 100), (100, 0), (0, 0)]).getD j
          default).bearing ∧
      ((computationSheet [((0 : ℝ), (0 : ℝ)), (0, 100), (100, 100), (100, 0), (0, 0)]).getD j
          default).bearing < 360) :=
  ⟨by simp,
    sheet_edge_records [((0 : ℝ), (0 : ℝ)), (0, 100), (100, 100), (100, 0), (0, 0)] (by simp)⟩

/- ### Claim C2: the angle column -/

/-- Counterexample for C2 at the closed counter-clockwise square (0,0),
    (100,0), (100,100), (0,100), (0,0): the last data row (point 4) gets no
    angle at all, although every vertex should per the claim; and the angle
    the code writes into data row 0 is the clockwise bearing deflection
    270, whereas the dot-product/arccosine formula of the claim gives 90
    for the incoming edge vector (100,0) and outgoing edge vector (0,100)
    at the corresponding corner. -/
theorem sheet_angle_not_arccos :
    ((computationSheet [((0 : ℝ), (0 : ℝ)), (100, 0), (100, 100), (0, 100), (0, 0)]).getD 3
        default).angle = none ∧
    ((computationSheet [((0 : ℝ), (0 : ℝ)), (100, 0), (100, 100), (0, 100), (0, 0)]).getD 0
        default).angle = some 270 ∧
    specTurnAngle (100, 0) (0, 100) = 90 ∧ ((270 : ℝ) ≠ 90) := by
  have hrow3 : (computationSheet
      [((0 : ℝ), (0 : ℝ)), (100, 0), (100, 100), (0, 100), (0, 0)]).getD 3 default =
      sheetRow [((0 : ℝ), (0 : ℝ)), (100, 0), (100, 100), (0, 100), (0, 0)] 3 := by
    unfold computationSheet
    exact getD_range_map _ _ _ _ (by simp)
  have hrow0 : (computationSheet
      [((0 : ℝ), (0 : ℝ)), (100, 0), (100, 100), (0, 100), (0, 0)]).getD 0 default =
      sheetRow [((0 : ℝ), (0 : ℝ)), (100, 0), (100, 100), (0, 100), (0, 0)] 0 := by
    unfold computationSheet
    exact getD_range_map _ _ _ _ (by simp)
  refine ⟨?_, ?_, ?_, by norm_num⟩
  · rw [hrow3]
    show (if 3 + 1 < ([((0 : ℝ), (0 : ℝ)), (100, 0), (100, 100), (0, 100), (0, 0)] :
        List (ℝ × ℝ)).length - 1 then
        some (pyMod ((bearingsOf
            [((0 : ℝ), (0 : ℝ)), (100, 0), (100, 100), (0, 100), (0, 0)]).getD (3 + 1) 0 -
          (bearingsOf
            [((0 : ℝ), (0 : ℝ)), (100, 0), (100, 100), (0, 100), (0, 0)]).getD 3 0) 360)
      else none) = none
    rw [if_neg (by simp)]
  · have hb0 : (bearingsOf
        [((0 : ℝ), (0 : ℝ)), (100, 0), (100, 100), (0, 100), (0, 0)]).getD 0 0 = 90 := by
      unfold bearingsOf
      rw [getD_range_map _ _ _ _ (by simp)]
      exact bearing_due_east
    have hb1 : (bearingsOf
        [((0 : ℝ), (0 : ℝ)), (100, 0), (100, 100), (0, 100), (0, 0)]).getD 1 0 = 0 := by
      unfold bearingsOf
      rw [getD_range_map _ _ _ _ (by simp)]
      exact bearing_due_north
    rw [hrow0]
    show (if 0 + 1 < ([((0 : ℝ), (0 : ℝ)), (100, 0), (100, 100), (0, 100), (0, 0)] :
        List (ℝ × ℝ)).length - 1 then
        some (pyMod ((bearingsOf
            [((0 : ℝ), (0 : ℝ)), (100, 0), (100, 100), (0, 100), (0, 0)]).getD (0 + 1) 0 -
          (bearingsOf
            [((0 : ℝ), (0 : ℝ)), (100, 0), (100, 100), (0, 100), (0, 0)]).getD 0 0) 360)
      else none) = some 270
    rw [if_pos (by simp)]
    rw [show ((0 : ℕ) + 1) = 1 from rfl, hb1, hb0,
      pyMod_eval (0 - 90) 360 (-1) (by norm_num) (by norm_num) (by norm_num)]
    norm_num
  · have h1 : vecNorm ((100 : ℝ), (0 : ℝ)) = 100 := by
      unfold vecNorm
      norm_num
      rw [show (10000 : ℝ) = 100 ^ 2 by norm_num, Real.sqrt_sq (by norm_num : (0 : ℝ) ≤ 100)]
    have h2 : vecNorm ((0 : ℝ), (100 : ℝ)) = 100 := by
      unfold vecNorm
      norm_num
      rw [show (10000 : ℝ) = 100 ^ 2 by norm_num, Real.sqrt_sq (by norm_num : (0 : ℝ) ≤ 100)]
    unfold specTurnAngle
    rw [h1, h2, if_neg (by norm_num)]
    norm_num
    exact degrees_pi_div_two

/-- C2 (amended): the computation sheet computes angles as clockwise bearing
    deflections, not arccosines: data row j (for j+1 < n, n the number of
    edges) carries the angle (bearing of edge (j+1, j+2) minus bearing of
    edge (j, j+1)) mod 360 — the turn at vertex j+1, displayed one row
    early — and the final data row carries no angle, so the first/closing
    vertex never receives a cyclic angle. -/
theorem sheet_angles_bearing_deflection (coords : List (ℝ × ℝ)) (h2 : 2 ≤ coords.length) :
    ∀ j, j < coords.length - 1 →
      ((computationSheet coords).getD j default).angle =
        (if j + 1 < coords.length - 1 then
          some (pyMod
            (compute_bearing (coords.getD (j + 1) (0, 0)) (coords.getD (j + 2) (0, 0)) -
              compute_bearing (coords.getD j (0, 0)) (coords.getD (j + 1) (0, 0))) 360)
        else none) := by
  intro j hj
  have hrow : (computationSheet coords).getD j default = sheetRow coords j := by
    unfold computationSheet
    exact getD_range_map _ _ _ _ hj
  rw [hrow]
  show (if j + 1 < coords.length - 1 then
      some (pyMod ((bearingsOf coords).getD (j + 1) 0 - (bearingsOf coords).getD j 0) 360)
    else none) = _
  by_cases hc : j + 1 < coords.length - 1
  · rw [if_pos hc, if_pos hc]
    have hb1 : (bearingsOf coords).getD (j + 1) 0 =
        compute_bearing (coords.getD (j + 1) (0, 0)) (coords.getD (j + 2) (0, 0)) := by
      unfold bearingsOf
      rw [getD_range_map _ _ _ _ hc]
    have hb0 : (bearingsOf coords).getD j 0 =
        compute_bearing (coords.getD j (0, 0)) (coords.getD (j + 1) (0, 0)) := by
      unfold bearingsOf
      rw [getD_range_map _ _ _ _ hj]
    rw [hb1, hb0]
  · rw [if_neg hc, if_neg hc]

/-- Witness for the amended C2 at the closed counter-clockwise square. -/
theorem sheet_angles_bearing_deflection_witness :
    2 ≤ ([((0 : ℝ), (0 : ℝ)), (100, 0), (100, 100), (0, 100), (0, 0)] : List (ℝ × ℝ)).length ∧
    ∀ j, j < ([((0 : ℝ), (0 : ℝ)), (100, 0), (100, 100), (0, 100), (0, 0)] :
        List (ℝ × ℝ)).length - 1 →
      ((computationSheet [((0 : ℝ), (0 : ℝ)), (100, 0), (100, 100), (0, 100), (0, 0)]).getD j
          default).angle =
        (if j + 1 < ([((0 : ℝ), (0 : ℝ)), (100, 0), (100, 100), (0, 100), (0, 0)] :
            List (ℝ × ℝ)).length - 1 then
          some (pyMod
            (compute_bearing
              (([((0 : ℝ), (0 : ℝ)), (100, 0), (100, 100), (0, 100), (0, 0)] :
                List (ℝ × ℝ)).getD (j + 1) (0, 0))
              (([((0 : ℝ), (0 : ℝ)), (100, 0), (100, 100), (0, 100), (0, 0)] :
                List (ℝ × ℝ)).getD (j + 2) (0, 0)) -
              compute_bearing
              (([((0 : ℝ), (0 : ℝ)), (100, 0), (100, 100), (0, 100), (0, 0)] :
                List (ℝ × ℝ)).getD j (0, 0))
              (([((0 : ℝ), (0 : ℝ)), (100, 0), (100, 100), (0, 100), (0, 0)] :
                List (ℝ × ℝ)).getD (j + 1) (0, 0))) 360)
        else none) :=
  ⟨by simp,
    sheet_angles_bearing_deflection
      [((0 : ℝ), (0 : ℝ)), (100, 0), (100, 100), (0, 100), (0, 0)] (by simp)⟩
